import Mathlib

/-!
Verification of the FMS (File Management System) storage engine.

A shallow embedding of the server storage layer (`DatabaseStorage` in
`server/storage.ts`) and of the recursive archive-ingestion routine
(`processZip` in `server/routes.ts`).  The relational store is modelled as
lists of rows; `db.select().where(P)` becomes `List.filter`, a destructured
single-row select `[x] = await db.select()...` becomes `List.find?`,
`db.update().set(...)` becomes `List.map` guarded by the row predicate,
`db.delete()` becomes `List.filter` with the negated predicate, and an
insert appends a row carrying the auto-increment id.  Timestamps
(`new Date()`) are opaque `Nat` values passed in by the caller; SQL `NULL`
is `Option.none`.
-/

namespace FMS

/-- Access levels stored in a Permission row and required by `checkAccess`
(`'view' | 'download' | 'edit'`). -/
inductive AccessLevel where
  | view
  | download
  | edit
deriving DecidableEq, Repr

instance : BEq AccessLevel := ⟨fun a b => decide (a = b)⟩

instance : LawfulBEq AccessLevel where
  eq_of_beq h := by simpa [BEq.beq] using h
  rfl := by simp [BEq.beq]

/-- The `targetType` discriminator of `checkAccess` (`'file' | 'folder'`). -/
inductive ItemType where
  | file
  | folder
deriving DecidableEq, Repr

/-- A row of the `folders` table (nullable columns are `Option`). -/
structure Folder where
  id : Nat
  name : String
  parentId : Option Nat
  ownerId : Option Nat
  isDeleted : Bool
  deletedAt : Option Nat
  deletedBy : Option Nat
deriving DecidableEq, Repr

/-- A row of the `files` table. `path` is the content-store locator. -/
structure File where
  id : Nat
  name : String
  folderId : Option Nat
  size : Nat
  mimeType : String
  path : String
  createdBy : Option Nat
  isStarred : Bool
  isDeleted : Bool
  deletedAt : Option Nat
  deletedBy : Option Nat
deriving DecidableEq, Repr

/-- A row of the `permissions` table: exactly one of `fileId`/`folderId` is
set by the callers; `userId` is the grantee. -/
structure Permission where
  id : Nat
  fileId : Option Nat
  folderId : Option Nat
  userId : Nat
  grantedBy : Nat
  accessLevel : AccessLevel
deriving DecidableEq, Repr

/-- The relational store: one list per table (row order = insertion order,
matching an un-`ORDER BY`ed MySQL scan), plus the auto-increment counters
used when a row is inserted. -/
structure DB where
  folders : List Folder
  files : List File
  permissions : List Permission
  nextFolderId : Nat
  nextFileId : Nat
deriving DecidableEq, Repr

/-- `getFile`: `const [file] = await db.select().from(files).where(eq(files.id, id))`. -/
def getFile (db : DB) (id : Nat) : Option File :=
  db.files.find? (fun f => f.id == id)

/-- `getFolder`: single-row select by folder id. -/
def getFolder (db : DB) (id : Nat) : Option Folder :=
  db.folders.find? (fun f => f.id == id)

/-- The folder ids shared with `userId`: select `folderId` from permissions
where `userId` matches and `fileId IS NULL`, then drop the nulls. -/
def sharedFolderIds (db : DB) (userId : Nat) : List Nat :=
  ((db.permissions.filter (fun p => p.userId == userId && p.fileId == none)).map
    (fun p => p.folderId)).filterMap id

/-- The file ids shared with `userId`: select `fileId` from permissions
where `userId` matches and `folderId IS NULL`, then drop the nulls. -/
def sharedFileIds (db : DB) (userId : Nat) : List Nat :=
  ((db.permissions.filter (fun p => p.userId == userId && p.folderId == none)).map
    (fun p => p.fileId)).filterMap id

/-- `DatabaseStorage.getFolders(parentId, userId)`.  Root listing returns
owned root folders or folders shared with the user (the `inArray`
condition is only pushed when the shared list is non-empty, which is
observationally the same as an always-false membership test on an empty
list); the non-root branch filters only by `parentId` and
`isDeleted = false`. -/
def getFolders (db : DB) (parentId : Option Nat) (userId : Nat) : List Folder :=
  let shared := sharedFolderIds db userId
  match parentId with
  | none =>
      db.folders.filter (fun f =>
        (f.parentId == none && f.ownerId == some userId && !f.isDeleted)
        || (shared.contains f.id && !f.isDeleted))
  | some pid =>
      db.folders.filter (fun f => f.parentId == some pid && !f.isDeleted)

/-- `DatabaseStorage.getFiles(folderId, userId)`: same shape as
`getFolders`. -/
def getFiles (db : DB) (folderId : Option Nat) (userId : Nat) : List File :=
  let shared := sharedFileIds db userId
  match folderId with
  | none =>
      db.files.filter (fun f =>
        (f.folderId == none && f.createdBy == some userId && !f.isDeleted)
        || (shared.contains f.id && !f.isDeleted))
  | some fid =>
      db.files.filter (fun f => f.folderId == some fid && !f.isDeleted)

/-- Step 1 of `checkAccess`: the ownership test
(`file?.createdBy === userId` resp. `folder?.ownerId === userId`). -/
def ownedBy (db : DB) (targetId : Nat) (targetType : ItemType) (userId : Nat) : Bool :=
  match targetType with
  | .file =>
      match getFile db targetId with
      | some f => f.createdBy == some userId
      | none => false
  | .folder =>
      match getFolder db targetId with
      | some f => f.ownerId == some userId
      | none => false

/-- Step 2 of `checkAccess`: the destructured single-row permission lookup
`const [perm] = await db.select().from(permissions).where(...)`. -/
def permFor (db : DB) (targetId : Nat) (targetType : ItemType) (userId : Nat) :
    Option Permission :=
  db.permissions.find? (fun p =>
    p.userId == userId &&
    (match targetType with
     | .file => p.fileId == some targetId
     | .folder => p.folderId == some targetId))

/-- `DatabaseStorage.checkAccess`: owner passes unconditionally; otherwise
the first matching grant passes `view` regardless of its level, passes
`edit` only when its stored level is `edit`, and there is no branch for
`download`; no grant (or no item and no grant) is a deny. -/
def checkAccess (db : DB) (targetId : Nat) (targetType : ItemType) (userId : Nat)
    (requiredLevel : AccessLevel) : Bool :=
  if ownedBy db targetId targetType userId then true
  else
    match permFor db targetId targetType userId with
    | some perm =>
        if requiredLevel == .view then true
        else if requiredLevel == .edit && perm.accessLevel == .edit then true
        else false
    | none => false

/-- `DatabaseStorage.deleteFile` (soft delete): set
`isDeleted / deletedAt / deletedBy` on the matching row. -/
def deleteFile (db : DB) (fileId userId now : Nat) : DB :=
  { db with
    files := db.files.map (fun f =>
      if f.id == fileId then
        { f with isDeleted := true, deletedAt := some now, deletedBy := some userId }
      else f) }

/-- `DatabaseStorage.restoreFile`: clear the soft-delete columns. -/
def restoreFile (db : DB) (fileId : Nat) : DB :=
  { db with
    files := db.files.map (fun f =>
      if f.id == fileId then
        { f with isDeleted := false, deletedAt := none, deletedBy := none }
      else f) }

/-- `DatabaseStorage.deleteFolder` (soft delete): flags the one folder row;
the source deliberately does not recurse into children. -/
def deleteFolder (db : DB) (folderId userId now : Nat) : DB :=
  { db with
    folders := db.folders.map (fun f =>
      if f.id == folderId then
        { f with isDeleted := true, deletedAt := some now, deletedBy := some userId }
      else f) }

/-- `DatabaseStorage.restoreFolder`: clear the soft-delete columns. -/
def restoreFolder (db : DB) (folderId : Nat) : DB :=
  { db with
    folders := db.folders.map (fun f =>
      if f.id == folderId then
        { f with isDeleted := false, deletedAt := none, deletedBy := none }
      else f) }

/-- `DatabaseStorage.moveFolder`: missing folder or a self-parenting target
returns `undefined` (here `none`) without touching the store; otherwise the
`parentId` of the matching row is updated and the row is re-read. -/
def moveFolder (db : DB) (folderId : Nat) (targetFolderId : Option Nat) :
    Option Folder × DB :=
  match getFolder db folderId with
  | none => (none, db)
  | some _ =>
      if targetFolderId == some folderId then (none, db)
      else
        let db' := { db with
          folders := db.folders.map (fun f =>
            if f.id == folderId then { f with parentId := targetFolderId } else f) }
        (getFolder db' folderId, db')

/-- The caller-supplied columns of a folder insert (`InsertFolder`). -/
structure InsertFolder where
  name : String
  parentId : Option Nat
  ownerId : Option Nat
deriving Repr

/-- The caller-supplied columns of a file insert (`InsertFile`). -/
structure InsertFile where
  name : String
  folderId : Option Nat
  size : Nat
  mimeType : String
  path : String
  createdBy : Option Nat
deriving Repr

/-- `DatabaseStorage.createFolder`: insert with the auto-increment id and
the schema defaults, returning the fresh row. -/
def createFolder (db : DB) (ins : InsertFolder) : Folder × DB :=
  let f : Folder :=
    { id := db.nextFolderId, name := ins.name, parentId := ins.parentId,
      ownerId := ins.ownerId, isDeleted := false, deletedAt := none, deletedBy := none }
  (f, { db with folders := db.folders ++ [f], nextFolderId := db.nextFolderId + 1 })

/-- `DatabaseStorage.createFile`: insert with the auto-increment id and the
schema defaults, returning the fresh row. -/
def createFile (db : DB) (ins : InsertFile) : File × DB :=
  let f : File :=
    { id := db.nextFileId, name := ins.name, folderId := ins.folderId,
      size := ins.size, mimeType := ins.mimeType, path := ins.path,
      createdBy := ins.createdBy, isStarred := false, isDeleted := false,
      deletedAt := none, deletedBy := none }
  (f, { db with files := db.files ++ [f], nextFileId := db.nextFileId + 1 })

/-- The `for (const child of childFolders)` loop of
`permanentDeleteFolder`, threading the store and accumulating the flat
file list; `rec` is the recursive call at the smaller fuel. -/
def pdfChildren (rec : DB → Nat → List File × DB) :
    List Folder → List File × DB → List File × DB
  | [], acc => acc
  | c :: rest, acc =>
      let r := rec acc.2 c.id
      pdfChildren rec rest (acc.1 ++ r.1, r.2)

/-- `DatabaseStorage.permanentDeleteFolder`: collect the direct child
files, recurse (depth-first) into the direct child folders, then delete
the files scoped to this folder and the folder row itself, returning the
flattened file list.  The source recursion has no explicit bound; `fuel`
makes it total, and the theorems require fuel at least the subtree
depth. -/
def permanentDeleteFolder : Nat → DB → Nat → List File × DB
  | 0, db, _ => ([], db)
  | Nat.succ fuel, db, folderId =>
      let directFiles := db.files.filter (fun f => f.folderId == some folderId)
      let childFolders := db.folders.filter (fun f => f.parentId == some folderId)
      let after := pdfChildren (fun d i => permanentDeleteFolder fuel d i)
        childFolders (directFiles, db)
      let db1 := after.2
      let db2 := { db1 with files := db1.files.filter (fun f => !(f.folderId == some folderId)) }
      let db3 := { db2 with folders := db2.folders.filter (fun f => !(f.id == folderId)) }
      (after.1, db3)

/-- An archive entry as exposed by the ZIP container, in physical order.
The normalized slash-separated `entryName` is modelled as its list of path
segments (the source's normalization — strip `\`, leading `./`, trailing
`/` — is the bridge between the two representations; `path.dirname` is
`dropLast` and `path.basename` is the last segment).  A file entry whose
bytes parse as a ZIP carries the parsed entry list (`zipContent = some
es`); `none` stands for ordinary bytes, including a corrupt pseudo-ZIP. -/
inductive ZipEntry where
  | dir (path : List String)
  | file (path : List String) (size : Nat) (zipContent : Option (List ZipEntry))
deriving Repr

/-- The per-ingestion-pass `folderCache` (`Map<string, number | null>`):
an association list from normalized path to resolved folder id. -/
def Cache := List (List String × Option Nat)

/-- `fileName.toLowerCase().endsWith('.zip')`, computed on the character
list (the string primitives are opaque to kernel reduction). -/
def lowerEndsWithZip (s : String) : Bool :=
  (s.data.map Char.toLower).reverse.take 4 == ['p', 'i', 'z', '.']

/-- `fileName.replace(/\.zip$/i, '')`: strip the four suffix characters
(only ever applied when `lowerEndsWithZip` holds). -/
def zipStem (s : String) : String :=
  String.mk (s.data.take (s.data.length - 4))

/-- `path.extname`, for the plain basenames that reach the MIME lookup:
the (lowercased-nothing) suffix from the last dot, or `""` when the name
has no dot. -/
def extnameOf (s : String) : String :=
  if s.data.contains '.' then
    "." ++ String.mk (s.data.reverse.takeWhile (fun c => !(c == '.'))).reverse
  else ""

/-- The inline extension → MIME lookup table of `processZip`, with the
`application/octet-stream` fallback. -/
def mimeFor (fileName : String) : String :=
  let ext := extnameOf fileName
  if ext == ".pdf" then "application/pdf"
  else if ext == ".doc" then "application/msword"
  else if ext == ".docx" then
    "application/vnd.openxmlformats-officedocument.wordprocessingml.document"
  else if ext == ".png" then "image/png"
  else if ext == ".jpg" then "image/jpeg"
  else if ext == ".jpeg" then "image/jpeg"
  else if ext == ".txt" then "text/plain"
  else if ext == ".json" then "application/json"
  else "application/octet-stream"

/-- `getOrCreateFolder` of `processZip`, structurally recursive on a fuel
that the wrapper fixes to the path length (the source recurses on
`path.dirname`, which strips exactly one segment, so this fuel is always
exact and the out-of-fuel branch is unreachable): resolve a normalized
path against the pass-local cache, recursively ensuring the parent path
exists, reusing an exact-name non-deleted sibling when present and
otherwise inserting a folder owned by the acting user; every resolved
path is cached. -/
def getOrCreateFolderAux (userId : Nat) (parentId : Option Nat) :
    Nat → List String → Cache → DB → Option Nat × Cache × DB
  | _, [], cache, db => (parentId, cache, db)
  | 0, _ :: _, cache, db => (none, cache, db)
  | Nat.succ n, s0 :: srest, cache, db =>
      match cache.find? (fun e => e.1 == s0 :: srest) with
      | some e => (e.2, cache, db)
      | none =>
          let r := getOrCreateFolderAux userId parentId n (s0 :: srest).dropLast cache db
          let folderName := (s0 :: srest).getLastD ""
          let sibs := getFolders r.2.2 r.1 userId
          match sibs.find? (fun f => f.name == folderName && !f.isDeleted) with
          | some ex => (some ex.id, ((s0 :: srest), some ex.id) :: r.2.1, r.2.2)
          | none =>
              let c := createFolder r.2.2
                { name := folderName, parentId := r.1, ownerId := some userId }
              (some c.1.id, ((s0 :: srest), some c.1.id) :: r.2.1, c.2)

/-- `getOrCreateFolder` at its exact fuel, the number of path segments. -/
def getOrCreateFolder (userId : Nat) (parentId : Option Nat) (segs : List String)
    (cache : Cache) (db : DB) : Option Nat × Cache × DB :=
  getOrCreateFolderAux userId parentId segs.length segs cache db

/-- The entry loop of `processZip`.  A directory entry resolves/creates its
path.  A file entry resolves its containing directory; a `.zip`-named
entry gets a folder named after its stem (reusing an exact-name
non-deleted sibling), its parsed contents are ingested recursively with a
fresh cache, and no File row is created for the entry itself (a corrupt
nested archive is caught and skipped, the stem folder having already been
created); any other entry becomes a File row owned by the acting user.
The recursion (over the entry list and into nested archives) is made
structural on a fuel; one unit is consumed per processed entry, so any
fuel at least the total number of entries (nested ones included)
reproduces the source's unbounded recursion, and out of fuel the rest of
the pass is dropped. -/

def processEntriesAux (userId : Nat) :
    Nat → List ZipEntry → Option Nat → Cache → DB → DB
  | _, [], _, _, db => db
  | 0, _ :: _, _, _, db => db
  | Nat.succ n, e :: rest, parentId, cache, db =>
      match e with
      | .dir p =>
          let r := getOrCreateFolder userId parentId p cache db
          processEntriesAux userId n rest parentId r.2.1 r.2.2
      | .file p sz zc =>
          let r := getOrCreateFolder userId parentId p.dropLast cache db
          let fileName := p.getLastD ""
          if lowerEndsWithZip fileName then
            let stem := zipStem fileName
            let sibs := getFolders r.2.2 r.1 userId
            let zr : Nat × DB :=
              match sibs.find? (fun f => f.name == stem && !f.isDeleted) with
              | some ex => (ex.id, r.2.2)
              | none =>
                  let c := createFolder r.2.2
                    { name := stem, parentId := r.1, ownerId := some userId }
                  (c.1.id, c.2)
            let db2 :=
              match zc with
              | some nested => processEntriesAux userId n nested (some zr.1) [] zr.2
              | none => zr.2
            processEntriesAux userId n rest parentId r.2.1 db2
          else
            let c := createFile r.2.2
              { name := fileName, folderId := r.1, size := sz,
                mimeType := mimeFor fileName, path := fileName,
                createdBy := some userId }
            processEntriesAux userId n rest parentId r.2.1 c.2

/-- One full ingestion pass over an archive byte stream (`processZip`
applied to a freshly parsed `AdmZip`) run with the given fuel: the path
cache starts empty. -/
def processZip (fuel userId : Nat) (entries : List ZipEntry) (parentId : Option Nat)
    (db : DB) : DB :=
  processEntriesAux userId fuel entries parentId [] db

/-- The store with no rows and fresh auto-increment counters. -/
def emptyDB : DB :=
  { folders := [], files := [], permissions := [], nextFolderId := 1, nextFileId := 1 }

/-- `item missing`: the target id resolves to no stored row. -/
def itemMissing (db : DB) (id : Nat) (ty : ItemType) : Prop :=
  match ty with
  | .file => getFile db id = none
  | .folder => getFolder db id = none

/-- Referential integrity of the permissions table, as enforced by the
schema's `FOREIGN KEY ... ON DELETE CASCADE` constraints: every non-null
`fileId`/`folderId` of a Permission row references an existing row. -/
def permRefsOk (db : DB) : Bool :=
  db.permissions.all (fun q =>
    (match q.fileId with
     | some i => db.files.any (fun f => f.id == i)
     | none => true) &&
    (match q.folderId with
     | some i => db.folders.any (fun g => g.id == i)
     | none => true))

/-- A store with one file owned by user 1 and a `download`-level grant of
it to user 2. -/
def dbDownloadGrant : DB :=
  { folders := [],
    files := [⟨1, "report.pdf", none, 10, "application/pdf", "u/report.pdf",
               some 1, false, false, none, none⟩],
    permissions := [⟨1, some 1, none, 2, 1, .download⟩],
    nextFolderId := 1, nextFileId := 2 }

/-- A store with one file owned by user 1 and two grants of it to user 2:
a `view` row inserted first and an `edit` row inserted second. -/
def dbDuplicateGrants : DB :=
  { folders := [],
    files := [⟨1, "notes.txt", none, 4, "text/plain", "u/notes.txt",
               some 1, false, false, none, none⟩],
    permissions := [⟨1, some 1, none, 2, 1, .view⟩, ⟨2, some 1, none, 2, 1, .edit⟩],
    nextFolderId := 1, nextFileId := 2 }

/-- A store with one file owned by user 1 and a single `edit` grant to
user 2. -/
def dbEditGrant : DB :=
  { folders := [],
    files := [⟨1, "notes.txt", none, 4, "text/plain", "u/notes.txt",
               some 1, false, false, none, none⟩],
    permissions := [⟨1, some 1, none, 2, 1, .edit⟩],
    nextFolderId := 1, nextFileId := 2 }

/-- C1 counterexample: in `dbDownloadGrant`, user 2 is not the owner and
holds a stored `download` grant on file 1, yet
`checkAccess(1, file, 2, download)` returns false — `checkAccess` has no
branch satisfying a `download` requirement from a stored grant, so the
claimed `storedAccessLevel == requiredCapability` rule fails. -/
theorem checkAccess_download_grant_denied_cex :
    (∃ p ∈ dbDownloadGrant.permissions,
      p.userId = 2 ∧ p.fileId = some 1 ∧ p.accessLevel = .download)
    ∧ ownedBy dbDownloadGrant 1 .file 2 = false
    ∧ checkAccess dbDownloadGrant 1 ItemType.file 2 AccessLevel.download = false := by
  decide

/-- C1 (amended): for a non-owner subject whose permission lookup returns
the stored grant `p`, the capability check passes exactly when the
required capability is `view` (any grant suffices) or the required
capability is `edit` and `p.accessLevel` is `edit`; a required `download`
is always denied to non-owners. -/
theorem checkAccess_nonowner_rule (db : DB) (id : Nat) (ty : ItemType) (u : Nat)
    (req : AccessLevel) (p : Permission)
    (hown : ownedBy db id ty u = false)
    (hperm : permFor db id ty u = some p) :
    checkAccess db id ty u req
      = (req == .view || (req == .edit && p.accessLevel == .edit)) := by
  simp only [checkAccess, hown, hperm]
  cases req <;> cases hp : p.accessLevel <;> simp [hp]

/-- C1 amended-claim witness at `dbDownloadGrant`. -/
theorem checkAccess_nonowner_rule_witness :
    checkAccess dbDownloadGrant 1 ItemType.file 2 AccessLevel.download = false := by
  have h := checkAccess_nonowner_rule dbDownloadGrant 1 .file 2 .download
    ⟨1, some 1, none, 2, 1, .download⟩ (by decide) (by decide)
  exact h.trans (by decide)

/-- C2 counterexample: in `dbDuplicateGrants`, user 2 holds two grants on
file 1, one of them `edit`, yet `checkAccess(1, file, 2, edit)` returns
false — the single-row lookup inspects only the first matching grant
(the `view` row), so duplicate grants do not combine as an OR. -/
theorem checkAccess_duplicate_grants_cex :
    (∃ p ∈ dbDuplicateGrants.permissions,
      p.userId = 2 ∧ p.fileId = some 1 ∧ p.accessLevel = .edit)
    ∧ ownedBy dbDuplicateGrants 1 .file 2 = false
    ∧ checkAccess dbDuplicateGrants 1 ItemType.file 2 AccessLevel.edit = false := by
  decide

/-- C2 (amended): for a non-owner subject, `checkAccess(..., edit)` is
true iff the FIRST stored grant returned for (item, subject) has
`accessLevel == edit`; in particular a single `view`-level grant yields
false. -/
theorem checkAccess_edit_first_grant (db : DB) (id : Nat) (ty : ItemType) (u : Nat)
    (p : Permission)
    (hown : ownedBy db id ty u = false)
    (hperm : permFor db id ty u = some p) :
    (checkAccess db id ty u .edit = true ↔ p.accessLevel = .edit) := by
  simp only [checkAccess, hown, hperm]
  cases hp : p.accessLevel <;> simp [hp]

/-- C2 amended-claim witness: a single `edit` grant passes `edit` on
`dbEditGrant`. -/
theorem checkAccess_edit_first_grant_witness :
    checkAccess dbEditGrant 1 ItemType.file 2 AccessLevel.edit = true := by
  exact (checkAccess_edit_first_grant dbEditGrant 1 .file 2
    ⟨1, some 1, none, 2, 1, .edit⟩ (by decide) (by decide)).mpr rfl

/-- C5: ownership supremacy and missing-item deny: the owner passes every
capability with no Permission row consulted, and when the target id
resolves to no stored item (permission referential integrity holding, as
the schema's cascading foreign keys guarantee) the check returns false
rather than failing. -/
theorem checkAccess_owner_and_missing (db : DB) (id : Nat) (ty : ItemType)
    (u : Nat) (req : AccessLevel) :
    (ownedBy db id ty u = true → checkAccess db id ty u req = true)
    ∧ (permRefsOk db = true → itemMissing db id ty →
        checkAccess db id ty u req = false) := by
  constructor
  · intro h
    simp [checkAccess, h]
  · intro hwf hmiss
    have hown : ownedBy db id ty u = false := by
      cases ty <;> simp_all [ownedBy, itemMissing]
    have hperm : permFor db id ty u = none := by
      rw [permFor, List.find?_eq_none]
      intro q hq
      have hq' := (List.all_eq_true.mp hwf) q hq
      cases ty with
      | file =>
          simp only [Bool.and_eq_true, Bool.not_eq_true] at hq' ⊢
          intro hcon
          obtain ⟨hu, hfid⟩ := hcon
          have hfid' : q.fileId = some id := by simpa using hfid
          rw [hfid'] at hq'
          obtain ⟨f, hf, hfid2⟩ := List.any_eq_true.mp hq'.1
          have : getFile db id ≠ none := by
            intro hn
            have := (List.find?_eq_none.mp hn) f hf
            exact this hfid2
          exact this hmiss
      | folder =>
          simp only [Bool.and_eq_true, Bool.not_eq_true] at hq' ⊢
          intro hcon
          obtain ⟨hu, hfid⟩ := hcon
          have hfid' : q.folderId = some id := by simpa using hfid
          rw [hfid'] at hq'
          obtain ⟨g, hg, hgid⟩ := List.any_eq_true.mp hq'.2
          have : getFolder db id ≠ none := by
            intro hn
            have := (List.find?_eq_none.mp hn) g hg
            exact this hgid
          exact this hmiss
    simp [checkAccess, hown, hperm]

/-- C5 witness: the owner passes `edit` on `dbDownloadGrant`, and a
dangling id is denied on the empty store. -/
theorem checkAccess_owner_and_missing_witness :
    checkAccess dbDownloadGrant 1 ItemType.file 1 AccessLevel.edit = true
    ∧ checkAccess emptyDB 9 ItemType.file 3 AccessLevel.view = false := by
  refine ⟨(checkAccess_owner_and_missing dbDownloadGrant 1 .file 1 .edit).1 (by decide),
    (checkAccess_owner_and_missing emptyDB 9 .file 3 .view).2 (by decide) rfl⟩

/-- Finding under a map commutes when the map does not change the
predicate's verdict. -/
theorem find?_map_pres {α : Type} (l : List α) (p : α → Bool) (g : α → α)
    (h : ∀ a, p (g a) = p a) :
    (l.map g).find? p = (l.find? p).map g := by
  induction l with
  | nil => rfl
  | cons a t ih =>
      by_cases hpa : p a = true
      · simp [List.find?_cons_of_pos, hpa, h]
      · have hpa' : p a = false := by simpa using hpa
        simp only [List.map_cons]
        rw [List.find?_cons_of_neg, List.find?_cons_of_neg]
        · exact ih
        · simp [hpa']
        · simp [h, hpa']

/-- C6: soft-delete/restore round-trip: after `deleteFile` then
`restoreFile`, the stored row has `isDeleted = false`,
`deletedAt = null`, `deletedBy = null`, and the same `name`, `folderId`
and `size` as before the soft delete. -/
theorem restore_softDelete_roundtrip (db : DB) (fid uid now : Nat) (f : File)
    (hf : getFile db fid = some f) :
    ∃ f', getFile (restoreFile (deleteFile db fid uid now) fid) fid = some f'
      ∧ f'.isDeleted = false ∧ f'.deletedAt = none ∧ f'.deletedBy = none
      ∧ f'.name = f.name ∧ f'.folderId = f.folderId ∧ f'.size = f.size := by
  have hf' : db.files.find? (fun x => x.id == fid) = some f := hf
  have hpf : (f.id == fid) = true := @List.find?_some _ (fun x => x.id == fid) f _ hf'
  refine ⟨{ f with isDeleted := false, deletedAt := none, deletedBy := none },
    ?_, rfl, rfl, rfl, rfl, rfl, rfl⟩
  show ((db.files.map _).map _).find? _ = _
  rw [List.map_map, find?_map_pres, hf']
  · have hfid : f.id = fid := by simpa using hpf
    simp [Function.comp, hfid]
  · intro a
    by_cases ha : (a.id == fid) = true
    · simp [Function.comp, ha]
    · have ha' : (a.id == fid) = false := by simpa using ha
      simp [Function.comp, ha']

/-- A store holding a two-level folder tree for concrete witnesses:
folder 1 (root, owned by user 1) containing folder 2, folder 2 containing
soft-deleted folder 3; files 10 (in folder 1), 11 (soft-deleted, in
folder 3) and 12 (at root). -/
def dbTree : DB :=
  { folders := [⟨1, "r", none, some 1, false, none, none⟩,
                ⟨2, "s", some 1, some 1, false, none, none⟩,
                ⟨3, "t", some 2, some 1, true, some 5, some 1⟩],
    files := [⟨10, "a", some 1, 1, "m", "a", some 1, false, false, none, none⟩,
              ⟨11, "b", some 3, 2, "m", "b", some 1, false, true, some 5, some 1⟩,
              ⟨12, "c", none, 3, "m", "c", some 1, false, false, none, none⟩],
    permissions := [], nextFolderId := 4, nextFileId := 13 }

/-- C6 witness at `dbTree`, file 10. -/
theorem restore_softDelete_roundtrip_witness :
    ∃ f', getFile (restoreFile (deleteFile dbTree 10 9 100) 10) 10 = some f'
      ∧ f'.isDeleted = false ∧ f'.deletedAt = none ∧ f'.deletedBy = none
      ∧ f'.name = "a" ∧ f'.folderId = some 1 ∧ f'.size = 1 := by
  exact restore_softDelete_roundtrip dbTree 10 9 100
    ⟨10, "a", some 1, 1, "m", "a", some 1, false, false, none, none⟩ (by decide)

/-- C7: `deleteFolder` flags the one addressed folder row
(`isDeleted`, `deletedAt`, `deletedBy`) and leaves every file row and
every other folder row — descendants included — exactly as stored. -/
theorem deleteFolder_frame (db : DB) (fid uid now : Nat) :
    (deleteFolder db fid uid now).files = db.files
    ∧ (∀ g ∈ db.folders, g.id = fid →
        { g with isDeleted := true, deletedAt := some now, deletedBy := some uid }
          ∈ (deleteFolder db fid uid now).folders)
    ∧ (∀ g ∈ db.folders, g.id ≠ fid → g ∈ (deleteFolder db fid uid now).folders)
    ∧ (∀ g ∈ (deleteFolder db fid uid now).folders, g.id ≠ fid → g ∈ db.folders) := by
  refine ⟨rfl, ?_, ?_, ?_⟩
  · intro g hg hid
    refine List.mem_map.mpr ⟨g, hg, ?_⟩
    rw [if_pos (by simpa using hid)]
  · intro g hg hid
    refine List.mem_map.mpr ⟨g, hg, ?_⟩
    rw [if_neg (by simpa using hid)]
  · intro g hg hid
    obtain ⟨a, ha, rfl⟩ := List.mem_map.mp hg
    by_cases hc : (a.id == fid) = true
    · exfalso
      apply hid
      rw [if_pos hc]
      simpa using hc
    · rwa [if_neg hc]

/-- C7 witness at `dbTree`: soft-deleting folder 1 leaves the files, the
descendant folder 2 and the already-deleted folder 3 untouched, and flags
folder 1 itself. -/
theorem deleteFolder_frame_witness :
    (deleteFolder dbTree 1 9 100).files = dbTree.files
    ∧ (⟨1, "r", none, some 1, true, some 100, some 9⟩ : Folder)
        ∈ (deleteFolder dbTree 1 9 100).folders
    ∧ (⟨2, "s", some 1, some 1, false, none, none⟩ : Folder)
        ∈ (deleteFolder dbTree 1 9 100).folders
    ∧ (⟨3, "t", some 2, some 1, true, some 5, some 1⟩ : Folder)
        ∈ (deleteFolder dbTree 1 9 100).folders := by
  have h := deleteFolder_frame dbTree 1 9 100
  exact ⟨h.1,
    h.2.1 ⟨1, "r", none, some 1, false, none, none⟩ (by decide) rfl,
    h.2.2.1 ⟨2, "s", some 1, some 1, false, none, none⟩ (by decide) (by decide),
    h.2.2.1 ⟨3, "t", some 2, some 1, true, some 5, some 1⟩ (by decide) (by decide)⟩

/-- C9: moving an existing folder into itself is rejected
(`undefined`, here `none`) and the store — the folder's `parentId`
included — is returned unchanged. -/
theorem moveFolder_self_rejected (db : DB) (fid : Nat) (g : Folder)
    (hg : getFolder db fid = some g) :
    moveFolder db fid (some fid) = (none, db) := by
  simp [moveFolder, hg]

/-- C9 witness at `dbTree`, folder 2. -/
theorem moveFolder_self_rejected_witness :
    moveFolder dbTree 2 (some 2) = (none, dbTree) := by
  exact moveFolder_self_rejected dbTree 2
    ⟨2, "s", some 1, some 1, false, none, none⟩ (by decide)

/-- C10: the non-root listing branch filters only by parent and the
soft-delete flag, so `getFolders`/`getFiles` at a non-null parent return
the same rows to any two subject users — per-user visibility is not
enforced below the root. -/
theorem listing_user_independent (db : DB) (pid u1 u2 : Nat) :
    getFolders db (some pid) u1 = getFolders db (some pid) u2
    ∧ getFiles db (some pid) u1 = getFiles db (some pid) u2 :=
  ⟨rfl, rfl⟩

/-- A ZIP archive holding a single entry `docs.zip`, itself a valid ZIP
holding `x.txt`. -/
def nestedArchive (sz sz2 : Nat) : List ZipEntry :=
  [.file ["docs.zip"] sz (some [.file ["x.txt"] sz2 none])]

/-- A ZIP archive listing directory entries `a` and `a/b` separately from
the file entry `a/b/c.txt`. -/
def abArchive (sz : Nat) : List ZipEntry :=
  [.dir ["a"], .dir ["a","b"], .file ["a","b","c.txt"] sz none]

/-- C4: ingesting a ZIP whose one entry is `docs.zip` (itself containing
`x.txt`) into an empty store creates exactly one folder — named `docs`,
in the entry's containing directory — holding the file row `x.txt`, and
creates no File row named `docs.zip`: the nested archive entry is skipped
after its recursive expansion. -/
theorem processZip_nested_archive_expansion (u sz sz2 : Nat) (pid : Option Nat) :
    ((processZip 10 u (nestedArchive sz sz2) pid emptyDB).folders.map
        (fun f => (f.id, f.name, f.parentId)) = [(1, "docs", pid)])
    ∧ ((processZip 10 u (nestedArchive sz sz2) pid emptyDB).files.map
        (fun fl => (fl.name, fl.folderId)) = [("x.txt", some 1)]) := by
  cases pid <;> exact ⟨rfl, rfl⟩

/-- C8: ingesting a ZIP containing `a/b/c.txt` into an initially empty
root — with the archive listing directory entries for `a` and `a/b` as
well as the file entry — creates exactly one folder `a`, exactly one
folder `b` as its child, and places `c.txt` in `b`: the pass-local path
cache and the exact-name sibling reuse prevent duplicate folders. -/
theorem processZip_no_duplicate_folders (u sz : Nat) :
    ((processZip 10 u (abArchive sz) none emptyDB).folders.map
        (fun f => (f.id, f.name, f.parentId)) = [(1, "a", none), (2, "b", some 1)])
    ∧ ((processZip 10 u (abArchive sz) none emptyDB).files.map
        (fun fl => (fl.name, fl.folderId)) = [("c.txt", some 2)]) :=
  ⟨rfl, rfl⟩

/-- A finitely-branching folder tree: the shape along which
`permanentDeleteFolder` recurses. -/
inductive FTree where
  | node (rootId : Nat) (children : List FTree)
deriving Repr

/-- The id at the root of a tree. -/
def FTree.rootId : FTree → Nat
  | .node i _ => i

mutual

/-- All folder ids of a tree, root first. -/
def FTree.ids : FTree → List Nat
  | .node i cs => i :: idsList cs

/-- All folder ids of a forest. -/
def idsList : List FTree → List Nat
  | [] => []
  | c :: cs => FTree.ids c ++ idsList cs

end

mutual

/-- Tree height: the fuel `permanentDeleteFolder` needs for the subtree. -/
def FTree.depth : FTree → Nat
  | .node _ cs => 1 + depthList cs

/-- Maximum height of a forest. -/
def depthList : List FTree → Nat
  | [] => 0
  | c :: cs => max (FTree.depth c) (depthList cs)

end

/-- The root ids of a forest. -/
def rootsOf (cs : List FTree) : List Nat :=
  cs.map FTree.rootId

mutual

/-- `representsB L t`: the stored folder rows `L` contain, below each node
of `t`, exactly the children recorded by `t` (in the row order the store
returns them): the rows whose `parentId` is the node are precisely the
node's recorded children.  This ties the tree shape to the store that
`permanentDeleteFolder` walks. -/
def representsB (L : List Folder) : FTree → Bool
  | .node i cs =>
      ((L.filter (fun g => g.parentId == some i)).map (fun g => g.id) == rootsOf cs)
      && allRep L cs

/-- `representsB` over every tree of a forest. -/
def allRep (L : List Folder) : List FTree → Bool
  | [] => true
  | c :: cs => representsB L c && allRep L cs

end

/-- Whether a file row's `folderId` lies in the given id set. -/
def fileBelow (ids : List Nat) (fl : File) : Bool :=
  match fl.folderId with
  | some k => ids.contains k
  | none => false

/-- Structural induction for `FTree` with the membership-based induction
hypothesis over the children list. -/
theorem FTree.inductionOn {motive : FTree → Prop}
    (h : ∀ i cs, (∀ c ∈ cs, motive c) → motive (FTree.node i cs)) (t : FTree) :
    motive t := by
  have key : ∀ n : Nat, ∀ t : FTree, sizeOf t ≤ n → motive t := by
    intro n
    induction n with
    | zero =>
        intro t ht
        cases t with
        | node i cs => simp at ht
    | succ n ih =>
        intro t ht
        cases t with
        | node i cs =>
            apply h
            intro c hc
            apply ih
            have h1 := List.sizeOf_lt_of_mem hc
            simp at ht
            omega
  exact key (sizeOf t) t (Nat.le_refl _)

/-- `allRep` unfolds to membership. -/
theorem allRep_iff (L : List Folder) (cs : List FTree) :
    allRep L cs = true ↔ ∀ c ∈ cs, representsB L c = true := by
  induction cs with
  | nil => simp [allRep]
  | cons c cs ih => simp [allRep, ih]

/-- Forest ids are the ids of the member trees. -/
theorem mem_idsList (cs : List FTree) (x : Nat) :
    x ∈ idsList cs ↔ ∃ c ∈ cs, x ∈ FTree.ids c := by
  induction cs with
  | nil => simp [idsList]
  | cons c cs ih => simp [idsList, ih]

/-- The root id is among a tree's ids. -/
theorem rootId_mem_ids (t : FTree) : t.rootId ∈ t.ids := by
  cases t with
  | node i cs => simp [FTree.rootId, FTree.ids]

/-- Membership in an appended id list, at the `Bool` level. -/
theorem contains_append_ids (a b : List Nat) (x : Nat) :
    (a ++ b).contains x = (a.contains x || b.contains x) := by
  simp [Bool.eq_iff_iff, List.elem_iff]

/-- Non-membership at the `Bool` level. -/
theorem contains_false_of_not_mem {a : List Nat} {x : Nat} (h : x ∉ a) :
    a.contains x = false := by
  simp [List.elem_iff, h]

/-- `fileBelow` distributes over an appended id list. -/
theorem fileBelow_append (a b : List Nat) (fl : File) :
    fileBelow (a ++ b) fl = (fileBelow a fl || fileBelow b fl) := by
  cases h : fl.folderId <;> simp [fileBelow, h, contains_append_ids]

/-- Filtering by a disjunction of mutually exclusive predicates is, up to
permutation, the two filters appended. -/
theorem filter_split_perm {α : Type} (l : List α) (p q : α → Bool)
    (hx : ∀ x ∈ l, ¬(p x = true ∧ q x = true)) :
    (l.filter (fun x => p x || q x)).Perm (l.filter p ++ l.filter q) := by
  induction l with
  | nil => simp
  | cons a t ih =>
      have hx' : ∀ x ∈ t, ¬(p x = true ∧ q x = true) :=
        fun x hm => hx x (List.mem_cons_of_mem _ hm)
      have iht := ih hx'
      by_cases hp : p a = true
      · have hq : q a = false := by
          cases hqa : q a
          · rfl
          · exact absurd ⟨hp, hqa⟩ (hx a (List.mem_cons_self _ _))
        simp only [List.filter_cons, hp, hq, Bool.true_or, if_true, List.cons_append]
        exact iht.cons a
      · have hp' : p a = false := by simpa using hp
        by_cases hq : q a = true
        · simp only [List.filter_cons, hp', hq, Bool.false_or, if_true, if_false]
          exact (iht.cons a).trans List.perm_middle.symm
        · have hq' : q a = false := by simpa using hq
          simp only [List.filter_cons, hp', hq', Bool.false_or, if_false]
          exact iht

/-- Every root id of a forest occurs among the forest's ids. -/
theorem rootsOf_sub (cs : List FTree) (x : Nat) (h : x ∈ rootsOf cs) :
    x ∈ idsList cs := by
  induction cs with
  | nil => simp [rootsOf] at h
  | cons c cs ih =>
      simp only [rootsOf, List.map_cons, List.mem_cons] at h
      rw [idsList]
      rcases h with h | h
      · exact List.mem_append_left _ (h ▸ rootId_mem_ids c)
      · exact List.mem_append_right _ (ih h)

/-- `representsB` is stable under removing rows whose ids are disjoint
from the tree: the rows below any node of the tree all carry tree ids, so
none of them is removed. -/
theorem representsB_stable (t : FTree) :
    ∀ (L : List Folder) (rB : Nat → Bool),
      representsB L t = true →
      (∀ x ∈ t.ids, rB x = false) →
      representsB (L.filter (fun g => !(rB g.id))) t = true := by
  induction t using FTree.inductionOn with
  | h i cs ih =>
      intro L rB hrep hdis
      rw [representsB, Bool.and_eq_true] at hrep
      obtain ⟨hmap, hall⟩ := hrep
      have hmapEq := eq_of_beq hmap
      rw [representsB, Bool.and_eq_true]
      constructor
      · have hcomm : (L.filter (fun g => !(rB g.id))).filter (fun g => g.parentId == some i)
            = (L.filter (fun g => g.parentId == some i)).filter (fun g => !(rB g.id)) := by
          rw [List.filter_filter, List.filter_filter]
          exact List.filter_congr (fun x hm => by
            cases x.parentId == some i <;> cases rB x.id <;> rfl)
        rw [hcomm]
        have hkeep : (L.filter (fun g => g.parentId == some i)).filter (fun g => !(rB g.id))
            = L.filter (fun g => g.parentId == some i) := by
          rw [List.filter_eq_self]
          intro g hg
          have hmem : g.id ∈ rootsOf cs := by
            rw [← hmapEq]
            exact List.mem_map_of_mem _ hg
          have hid : rB g.id = false := by
            apply hdis
            rw [FTree.ids]
            exact List.mem_cons_of_mem _ (rootsOf_sub cs g.id hmem)
          simp [hid]
        rw [hkeep]
        exact hmap
      · rw [allRep_iff] at hall ⊢
        intro c hc
        apply ih c hc L rB (hall c hc)
        intro x hx
        apply hdis
        rw [FTree.ids]
        exact List.mem_cons_of_mem _ ((mem_idsList cs x).mpr ⟨c, hc, hx⟩)

/-- `contains` at a consed id. -/
theorem contains_cons_ids (k : Nat) (ids : List Nat) (x : Nat) :
    (k :: ids).contains x = ((x == k) || ids.contains x) := by
  show List.elem x (k :: ids) = _
  rw [List.elem_cons]
  cases x == k <;> rfl

/-- `fileBelow` at a consed id. -/
theorem fileBelow_cons (k : Nat) (ids : List Nat) (fl : File) :
    fileBelow (k :: ids) fl = ((fl.folderId == some k) || fileBelow ids fl) := by
  cases h : fl.folderId with
  | none => simp [fileBelow, h]
  | some x =>
      simp only [fileBelow, h]
      rw [contains_cons_ids]
      rfl

/-- What `permanentDeleteFolder` must do on the subtree described by a
tree: return exactly the files stored below the subtree's folder ids (as
a permutation of the store's filter), and leave exactly the file rows and
folder rows outside those ids. -/
def PdfSpec (fuel : Nat) (db : DB) (t : FTree) : Prop :=
  ((permanentDeleteFolder fuel db t.rootId).1).Perm
      (db.files.filter (fun fl => fileBelow t.ids fl))
  ∧ (permanentDeleteFolder fuel db t.rootId).2.files
      = db.files.filter (fun fl => !(fileBelow t.ids fl))
  ∧ (permanentDeleteFolder fuel db t.rootId).2.folders
      = db.folders.filter (fun g => !(t.ids.contains g.id))

/-- The child loop of `permanentDeleteFolder`, specified: processing the
rows of a represented forest deletes exactly the forest's subtrees and
collects exactly their files, appended to the accumulator. -/
theorem pdfChildren_spec (n : Nat) (cs : List FTree) :
    ∀ (rows : List Folder) (db : DB) (acc0 : List File),
      (∀ c ∈ cs, ∀ db' : DB, representsB db'.folders c = true → c.ids.Nodup →
        c.depth ≤ n → PdfSpec n db' c) →
      rows.map (fun g => g.id) = rootsOf cs →
      (∀ c ∈ cs, representsB db.folders c = true) →
      (idsList cs).Nodup →
      depthList cs ≤ n →
      ∃ L : List File,
        (pdfChildren (fun d i => permanentDeleteFolder n d i) rows (acc0, db)).1
            = acc0 ++ L
        ∧ L.Perm (db.files.filter (fun fl => fileBelow (idsList cs) fl))
        ∧ (pdfChildren (fun d i => permanentDeleteFolder n d i) rows (acc0, db)).2.files
            = db.files.filter (fun fl => !(fileBelow (idsList cs) fl))
        ∧ (pdfChildren (fun d i => permanentDeleteFolder n d i) rows (acc0, db)).2.folders
            = db.folders.filter (fun g => !((idsList cs).contains g.id)) := by
  induction cs with
  | nil =>
      intro rows db acc0 hIH hmap hreps hnd hdep
      have hmap' : rows.map (fun g => g.id) = [] := by simpa [rootsOf] using hmap
      have hrows : rows = [] := List.map_eq_nil_iff.mp hmap'
      subst hrows
      have hpe : pdfChildren (fun d i => permanentDeleteFolder n d i) [] (acc0, db)
          = (acc0, db) := rfl
      have hb0 : ∀ fl : File, fileBelow (idsList []) fl = false := by
        intro fl
        cases h : fl.folderId <;> simp [fileBelow, h, idsList]
      refine ⟨[], by rw [hpe, List.append_nil], ?_, ?_, ?_⟩
      · rw [List.filter_congr (fun x hx => hb0 x), List.filter_false]
      · have hb : ∀ fl ∈ db.files, (!(fileBelow (idsList []) fl)) = true := by
          intro fl _
          rw [hb0]
          rfl
        rw [hpe]
        exact (List.filter_eq_self.mpr hb).symm
      · have hb : ∀ g ∈ db.folders, (!((idsList []).contains g.id)) = true := fun g _ => rfl
        rw [hpe]
        exact (List.filter_eq_self.mpr hb).symm
  | cons c cs ih =>
      intro rows db acc0 hIH hmap hreps hnd hdep
      obtain ⟨w, rows1, hrw, hwid, hmap1⟩ := List.map_eq_cons_iff.mp (by
        simpa [rootsOf] using hmap)
      subst hrw
      have hidsL : idsList (c :: cs) = FTree.ids c ++ idsList cs := rfl
      rw [hidsL] at hnd
      rw [List.nodup_append] at hnd
      obtain ⟨hnd1, hnd2, hdisj⟩ := hnd
      have hdep1 : c.depth ≤ n := le_trans (le_max_left _ _) (by
        simpa [depthList] using hdep)
      have hdep2 : depthList cs ≤ n := le_trans (le_max_right _ _) (by
        simpa [depthList] using hdep)
      have h1 := hIH c (List.mem_cons_self _ _) db (hreps c (List.mem_cons_self _ _))
        hnd1 hdep1
      obtain ⟨hperm1, hfiles1, hfolders1⟩ := h1
      -- process the remaining siblings from the post-c store
      have hnotinc : ∀ x ∈ idsList cs, x ∉ FTree.ids c := by
        intro x hx hcx
        exact hdisj hcx hx
      have hstep := ih rows1
        (permanentDeleteFolder n db c.rootId).2 (acc0 ++ (permanentDeleteFolder n db c.rootId).1)
        (fun c' hc' => hIH c' (List.mem_cons_of_mem _ hc')) hmap1
        (by
          intro c' hc'
          rw [hfolders1]
          exact representsB_stable c' db.folders (fun x => (FTree.ids c).contains x)
            (hreps c' (List.mem_cons_of_mem _ hc'))
            (fun x hx => contains_false_of_not_mem (by
              intro hcx
              exact hdisj hcx ((mem_idsList cs x).mpr ⟨c', hc', hx⟩))))
        hnd2 hdep2
      obtain ⟨L1, hres1, hL1, hfiles2, hfolders2⟩ := hstep
      -- exclusivity of the two file predicates over the original store
      have hexcl : ∀ x ∈ db.files,
          ¬(fileBelow (FTree.ids c) x = true ∧ fileBelow (idsList cs) x = true) := by
        intro x _ ⟨hpc, hqc⟩
        cases hfo : x.folderId with
        | none => simp [fileBelow, hfo] at hpc
        | some k =>
            rw [fileBelow, hfo] at hpc hqc
            exact hdisj (List.elem_iff.mp hpc) (List.elem_iff.mp hqc)
      have hq_imp_notp : ∀ x ∈ db.files,
          fileBelow (idsList cs) x = true → fileBelow (FTree.ids c) x = false := by
        intro x hx hq
        cases hpc : fileBelow (FTree.ids c) x
        · rfl
        · exact absurd ⟨hpc, hq⟩ (hexcl x hx)
      have hL1' : L1.Perm (db.files.filter (fun fl => fileBelow (idsList cs) fl)) := by
        have e : (permanentDeleteFolder n db c.rootId).2.files.filter
              (fun fl => fileBelow (idsList cs) fl)
            = db.files.filter (fun fl => fileBelow (idsList cs) fl) := by
          rw [hfiles1, List.filter_filter]
          refine List.filter_congr ?_
          intro x hx
          cases hq : fileBelow (idsList cs) x
          · rfl
          · simp [hq_imp_notp x hx hq]
        exact hL1.trans (e ▸ List.Perm.refl _)
      have hstepEq : pdfChildren (fun d i => permanentDeleteFolder n d i) (w :: rows1) (acc0, db)
          = pdfChildren (fun d i => permanentDeleteFolder n d i) rows1
              (acc0 ++ (permanentDeleteFolder n db w.id).1,
                (permanentDeleteFolder n db w.id).2) := rfl
      refine ⟨(permanentDeleteFolder n db c.rootId).1 ++ L1, ?_, ?_, ?_, ?_⟩
      · rw [hstepEq, hwid, hres1, List.append_assoc]
      · have e2 : db.files.filter (fun fl => fileBelow (idsList (c :: cs)) fl)
            = db.files.filter (fun fl =>
                fileBelow (FTree.ids c) fl || fileBelow (idsList cs) fl) := by
          refine List.filter_congr ?_
          intro x _
          rw [hidsL, fileBelow_append]
        rw [e2]
        exact (hperm1.append hL1').trans
          (filter_split_perm db.files _ _ hexcl).symm
      · rw [hstepEq, hwid, hfiles2, hfiles1, List.filter_filter]
        refine List.filter_congr ?_
        intro x _
        rw [hidsL, fileBelow_append]
        cases fileBelow (FTree.ids c) x <;> cases fileBelow (idsList cs) x <;> rfl
      · rw [hstepEq, hwid, hfolders2, hfolders1, List.filter_filter]
        refine List.filter_congr ?_
        intro x _
        rw [hidsL, contains_append_ids]
        cases (FTree.ids c).contains x.id <;> cases (idsList cs).contains x.id <;> rfl

/-- `permanentDeleteFolder` satisfies its subtree specification on every
represented, duplicate-free tree, given fuel at least the tree depth. -/
theorem pdf_spec_tree (t : FTree) :
    ∀ (fuel : Nat) (db : DB), representsB db.folders t = true → t.ids.Nodup →
      t.depth ≤ fuel → PdfSpec fuel db t := by
  induction t using FTree.inductionOn with
  | h i cs ih =>
      intro fuel db hrep hnd hdep
      rw [FTree.depth] at hdep
      obtain ⟨n, rfl⟩ : ∃ n, fuel = n + 1 := ⟨fuel - 1, by omega⟩
      rw [representsB, Bool.and_eq_true] at hrep
      obtain ⟨hmap, hall⟩ := hrep
      have hmapEq := eq_of_beq hmap
      rw [allRep_iff] at hall
      have hids : FTree.ids (FTree.node i cs) = i :: idsList cs := by rw [FTree.ids]
      rw [hids] at hnd
      have hnotin : i ∉ idsList cs := (List.nodup_cons.mp hnd).1
      have hnd2 : (idsList cs).Nodup := (List.nodup_cons.mp hnd).2
      have hdep2 : depthList cs ≤ n := by omega
      have hroot : FTree.rootId (FTree.node i cs) = i := rfl
      have hpdf : permanentDeleteFolder (n + 1) db i
          = (let directFiles := db.files.filter (fun f => f.folderId == some i)
             let childFolders := db.folders.filter (fun f => f.parentId == some i)
             let after := pdfChildren (fun d j => permanentDeleteFolder n d j)
               childFolders (directFiles, db)
             let db1 := after.2
             let db2 := { db1 with
               files := db1.files.filter (fun f => !(f.folderId == some i)) }
             let db3 := { db2 with
               folders := db2.folders.filter (fun f => !(f.id == i)) }
             (after.1, db3)) := rfl
      obtain ⟨L, hres, hLperm, hfiles, hfolders⟩ :=
        pdfChildren_spec n cs (db.folders.filter (fun f => f.parentId == some i)) db
          (db.files.filter (fun f => f.folderId == some i))
          (fun c hc db' h1 h2 h3 => ih c hc n db' h1 h2 h3)
          hmapEq hall hnd2 hdep2
      have hexcl : ∀ x ∈ db.files,
          ¬((x.folderId == some i) = true ∧ fileBelow (idsList cs) x = true) := by
        intro x _ ⟨hpc, hqc⟩
        cases hfo : x.folderId with
        | none => rw [hfo] at hpc; exact absurd hpc (by simp)
        | some k =>
            rw [hfo] at hpc
            have hk : k = i := by simpa using hpc
            rw [fileBelow, hfo, hk] at hqc
            exact hnotin (List.elem_iff.mp hqc)
      constructor
      · -- returned file list
        rw [hroot, hpdf]
        show (pdfChildren _ _ _).1.Perm _
        rw [hres]
        have e2 : db.files.filter (fun fl => fileBelow (FTree.ids (FTree.node i cs)) fl)
            = db.files.filter (fun fl =>
                (fl.folderId == some i) || fileBelow (idsList cs) fl) := by
          refine List.filter_congr ?_
          intro x _
          rw [hids, fileBelow_cons]
        rw [e2]
        exact ((List.Perm.refl _).append hLperm).trans
          (filter_split_perm db.files _ _ hexcl).symm
      constructor
      · -- remaining files
        rw [hroot, hpdf]
        show (pdfChildren _ _ _).2.files.filter _ = _
        rw [hfiles, List.filter_filter]
        refine List.filter_congr ?_
        intro x _
        rw [hids, fileBelow_cons]
        cases x.folderId == some i <;> cases fileBelow (idsList cs) x <;> rfl
      · -- remaining folders
        rw [hroot, hpdf]
        show (pdfChildren _ _ _).2.folders.filter _ = _
        rw [hfolders, List.filter_filter]
        refine List.filter_congr ?_
        intro x _
        rw [hids, contains_cons_ids]
        cases x.id == i <;> cases (idsList cs).contains x.id <;> rfl

/-- In a represented store, a row whose parent is a tree id is itself a
tree id (it is one of the recorded children of that node). -/
theorem mem_ids_children (t : FTree) :
    ∀ (L : List Folder), representsB L t = true → ∀ k ∈ t.ids, ∀ g ∈ L,
      g.parentId = some k → g.id ∈ t.ids := by
  induction t using FTree.inductionOn with
  | h i cs ih =>
      intro L hrep k hk g hg hpar
      rw [representsB, Bool.and_eq_true] at hrep
      obtain ⟨hmap, hall⟩ := hrep
      have hmapEq := eq_of_beq hmap
      rw [allRep_iff] at hall
      have hids : FTree.ids (FTree.node i cs) = i :: idsList cs := by rw [FTree.ids]
      rw [hids] at hk ⊢
      rcases List.mem_cons.mp hk with rfl | hk'
      · have hmem : g ∈ L.filter (fun x => x.parentId == some k) :=
          List.mem_filter.mpr ⟨hg, by simp [hpar]⟩
        have : g.id ∈ rootsOf cs := by
          rw [← hmapEq]
          exact List.mem_map_of_mem _ hmem
        exact List.mem_cons_of_mem _ (rootsOf_sub cs _ this)
      · obtain ⟨c, hc, hkc⟩ := (mem_idsList cs k).mp hk'
        have := ih c hc L (hall c hc) k hkc g hg hpar
        exact List.mem_cons_of_mem _ ((mem_idsList cs g.id).mpr ⟨c, hc, this⟩)

/-- C3: permanent-delete completeness.  For a folder tree `t` describing
the stored subtree at `t.rootId` (children exactly as stored, ids
duplicate-free) and fuel at least the tree depth:
`permanentDeleteFolder` returns exactly the files stored anywhere below
the subtree's folders — each exactly once, soft-deleted or not — and
afterwards no File row references a subtree folder, no subtree Folder row
remains, and no surviving Folder row has its parent in the subtree. -/
theorem permanentDeleteFolder_complete (t : FTree) (db : DB) (fuel : Nat)
    (hrep : representsB db.folders t = true) (hnd : t.ids.Nodup)
    (hdep : t.depth ≤ fuel) :
    ((permanentDeleteFolder fuel db t.rootId).1).Perm
        (db.files.filter (fun fl => fileBelow t.ids fl))
    ∧ (permanentDeleteFolder fuel db t.rootId).2.files
        = db.files.filter (fun fl => !(fileBelow t.ids fl))
    ∧ (permanentDeleteFolder fuel db t.rootId).2.folders
        = db.folders.filter (fun g => !(t.ids.contains g.id))
    ∧ ∀ g ∈ (permanentDeleteFolder fuel db t.rootId).2.folders,
        ∀ k ∈ t.ids, g.parentId ≠ some k := by
  obtain ⟨h1, h2, h3⟩ := pdf_spec_tree t fuel db hrep hnd hdep
  refine ⟨h1, h2, h3, ?_⟩
  intro g hg k hk hpar
  rw [h3, List.mem_filter] at hg
  obtain ⟨hgL, hgc⟩ := hg
  have hin : g.id ∈ t.ids := mem_ids_children t db.folders hrep k hk g hgL hpar
  have hcontains : t.ids.contains g.id = true := List.elem_iff.mpr hin
  rw [hcontains] at hgc
  exact absurd hgc (by simp)

/-- The tree describing `dbTree`'s subtree at folder 1: folder 1 contains
folder 2, which contains the soft-deleted folder 3. -/
def treeOfDbTree : FTree := .node 1 [.node 2 [.node 3 []]]

/-- C3 witness at `dbTree`: purging folder 1 returns files 10 and 11
(the soft-deleted file 11 included) and leaves only the root file 12 and
no folder row. -/
theorem permanentDeleteFolder_complete_witness :
    ((permanentDeleteFolder 3 dbTree 1).1).Perm
        (dbTree.files.filter (fun fl => fileBelow treeOfDbTree.ids fl))
    ∧ (permanentDeleteFolder 3 dbTree 1).2.files
        = dbTree.files.filter (fun fl => !(fileBelow treeOfDbTree.ids fl))
    ∧ (permanentDeleteFolder 3 dbTree 1).2.folders
        = dbTree.folders.filter (fun g => !(treeOfDbTree.ids.contains g.id))
    ∧ ∀ g ∈ (permanentDeleteFolder 3 dbTree 1).2.folders,
        ∀ k ∈ treeOfDbTree.ids, g.parentId ≠ some k := by
  exact permanentDeleteFolder_complete treeOfDbTree dbTree 3
    (by decide) (by decide) (by decide)

end FMS
